import Mathlib

/-!
Verification of the stream-transducer processes of the `csp` package
(Hoare's CSP paper examples S3.1 to S3.6).

Each Go transducer reads a channel until it is closed and writes a channel,
closing it at the end.  For a finite input, the channel discipline is
deterministic single-producer/single-consumer, so each transducer denotes a
function from the finite list of values received to the finite list of values
sent.  The definitions below are direct translations of the Go loop bodies:
each `east <- x` send becomes one emitted element, each receive consumes one
input element, the buffer/index state of `S34_ASSEMBLE` is passed explicitly,
and the `close` events are modelled separately by traced variants (`Ev`).
-/

set_option autoImplicit false
set_option maxRecDepth 8192

namespace Csp

/-- One channel event: a sent value or the closing of the channel. -/
inductive Ev (α : Type) where
  | v (x : α)
  | close
deriving DecidableEq, Repr

/-- S31_COPY: `for c := range west { east <- c }; close(east)`.
Value stream only (the close is in `S31_COPY_tr`). -/
def S31_COPY : List Char → List Char
  | [] => []
  | c :: rest => c :: S31_COPY rest

/-- Traced S31_COPY: every send plus the final close of `east`. -/
def S31_COPY_tr : List Char → List (Ev Char)
  | [] => [Ev.close]
  | c :: rest => Ev.v c :: S31_COPY_tr rest

/-- S32_SQUASH (strict policy): on `*` it reads a lookahead; if the input
closes during the lookahead the loop breaks, dropping the dangling marker. -/
def S32_SQUASH : List Char → List Char
  | [] => []
  | c :: rest =>
    if c ≠ '*' then c :: S32_SQUASH rest
    else
      match rest with
      | [] => []
      | c2 :: rest2 =>
        if c2 ≠ '*' then '*' :: c2 :: S32_SQUASH rest2
        else '↑' :: S32_SQUASH rest2

/-- Traced S32_SQUASH: sends plus the final close of `east`. -/
def S32_SQUASH_tr : List Char → List (Ev Char)
  | [] => [Ev.close]
  | c :: rest =>
    if c ≠ '*' then Ev.v c :: S32_SQUASH_tr rest
    else
      match rest with
      | [] => [Ev.close]
      | c2 :: rest2 =>
        if c2 ≠ '*' then Ev.v '*' :: Ev.v c2 :: S32_SQUASH_tr rest2
        else Ev.v '↑' :: S32_SQUASH_tr rest2

/-- S32_SQUASH_EX (lenient policy): if the input closes during the lookahead
it emits the dangling `*` before breaking. -/
def S32_SQUASH_EX : List Char → List Char
  | [] => []
  | c :: rest =>
    if c ≠ '*' then c :: S32_SQUASH_EX rest
    else
      match rest with
      | [] => ['*']
      | c2 :: rest2 =>
        if c2 ≠ '*' then '*' :: c2 :: S32_SQUASH_EX rest2
        else '↑' :: S32_SQUASH_EX rest2

/-- Traced S32_SQUASH_EX: sends plus the final close of `east`. -/
def S32_SQUASH_EX_tr : List Char → List (Ev Char)
  | [] => [Ev.close]
  | c :: rest =>
    if c ≠ '*' then Ev.v c :: S32_SQUASH_EX_tr rest
    else
      match rest with
      | [] => [Ev.v '*', Ev.close]
      | c2 :: rest2 =>
        if c2 ≠ '*' then Ev.v '*' :: Ev.v c2 :: S32_SQUASH_EX_tr rest2
        else Ev.v '↑' :: S32_SQUASH_EX_tr rest2

/-- S33_DISASSEMBLE: per card, `cardimage` gets the first 80 runes
(`tmp[:80]` when `len(tmp) > 80`, else all of `tmp`), each element is sent,
then one space; then the next card; `close(X)` at the end. -/
def S33_DISASSEMBLE : List (List Char) → List Char
  | [] => []
  | tmp :: rest =>
    (if tmp.length > 80 then tmp.take 80 else tmp) ++ ' ' :: S33_DISASSEMBLE rest

/-- Traced S33_DISASSEMBLE: sends plus the final close of `X`. -/
def S33_DISASSEMBLE_tr : List (List Char) → List (Ev Char)
  | [] => [Ev.close]
  | tmp :: rest =>
    ((if tmp.length > 80 then tmp.take 80 else tmp).map Ev.v)
      ++ Ev.v ' ' :: S33_DISASSEMBLE_tr rest

/-- The closing pad loop of S34_ASSEMBLE:
`for i <= 124 { lineimage[i] = ' '; i++ }`. -/
def padLoop (lineimage : List Char) (i : Nat) : List Char :=
  if i ≤ 124 then padLoop (lineimage.set i ' ') (i + 1) else lineimage
termination_by 125 - i

/-- The body of S34_ASSEMBLE as explicit state passing: `lineimage` is the
125-rune buffer and `i` the fill index.  Per received `c`:
`lineimage[i] = c; if i <= 124 { i++ }; if i == 125 { lineimage[i-1] = c;
emit; i = 0 }`; at close, a partially filled buffer (`i > 0`) is padded with
spaces and emitted. -/
def S34_ASSEMBLE_loop : List Char → List Char → Nat → List (List Char)
  | [], lineimage, i => if i > 0 then [padLoop lineimage i] else []
  | c :: rest, lineimage, i =>
    let l1 := lineimage.set i c
    let i1 := if i ≤ 124 then i + 1 else i
    if i1 = 125 then (l1.set (i1 - 1) c) :: S34_ASSEMBLE_loop rest (l1.set (i1 - 1) c) 0
    else S34_ASSEMBLE_loop rest l1 i1

/-- S34_ASSEMBLE: starts from `make([]rune, 125)` (zero runes) and index 0. -/
def S34_ASSEMBLE (X : List Char) : List (List Char) :=
  S34_ASSEMBLE_loop X (List.replicate 125 (Char.ofNat 0)) 0

/-- Traced S34_ASSEMBLE loop: line sends plus the final close of
`lineprinter`. -/
def S34_ASSEMBLE_loop_tr : List Char → List Char → Nat → List (Ev (List Char))
  | [], lineimage, i => if i > 0 then [Ev.v (padLoop lineimage i), Ev.close] else [Ev.close]
  | c :: rest, lineimage, i =>
    let l1 := lineimage.set i c
    let i1 := if i ≤ 124 then i + 1 else i
    if i1 = 125 then
      Ev.v (l1.set (i1 - 1) c) :: S34_ASSEMBLE_loop_tr rest (l1.set (i1 - 1) c) 0
    else S34_ASSEMBLE_loop_tr rest l1 i1

/-- Traced S34_ASSEMBLE. -/
def S34_ASSEMBLE_tr (X : List Char) : List (Ev (List Char)) :=
  S34_ASSEMBLE_loop_tr X (List.replicate 125 (Char.ofNat 0)) 0

/-- S35_Reformat: DISASSEMBLE feeds COPY feeds ASSEMBLE through the two
internal channels `west`, `east`. -/
def S35_Reformat (cardfile : List (List Char)) : List (List Char) :=
  S34_ASSEMBLE (S31_COPY (S33_DISASSEMBLE cardfile))

/-- S36_ConwayProblem: DISASSEMBLE feeds SQUASH_EX feeds ASSEMBLE. -/
def S36_ConwayProblem (cardfile : List (List Char)) : List (List Char) :=
  S34_ASSEMBLE (S32_SQUASH_EX (S33_DISASSEMBLE cardfile))

/-- Length of the trailing maximal run of `*` in a list: the run of
`c :: rest` extends `rest` only when all of `rest` is markers and `c` is. -/
def trailingStars : List Char → Nat
  | [] => 0
  | c :: rest =>
    if c = '*' ∧ trailingStars rest = rest.length then rest.length + 1
    else trailingStars rest

/-- Reference chunking of a character stream into 125-wide lines, the final
partial line space-padded: the specification shape that `S34_ASSEMBLE` is
proved to realise. -/
def assembleSpec (cs : List Char) : List (List Char) :=
  if cs = [] then []
  else if 125 ≤ cs.length then cs.take 125 :: assembleSpec (cs.drop 125)
  else [cs ++ List.replicate (125 - cs.length) ' ']
termination_by cs.length
decreasing_by
  simp only [List.length_drop]
  omega

/-! ### Unfolding lemmas for the two SQUASH state machines -/

theorem squash_nil : S32_SQUASH [] = [] := rfl

theorem squash_cons_of_ne {c : Char} (rest : List Char) (h : c ≠ '*') :
    S32_SQUASH (c :: rest) = c :: S32_SQUASH rest := by
  cases rest with
  | nil => simp [S32_SQUASH, h]
  | cons c2 rest2 => simp [S32_SQUASH, h]

theorem squash_star_nil : S32_SQUASH ['*'] = [] := by
  decide

theorem squash_star_cons_of_ne {c2 : Char} (rest2 : List Char) (h : c2 ≠ '*') :
    S32_SQUASH ('*' :: c2 :: rest2) = '*' :: c2 :: S32_SQUASH rest2 := by
  simp [S32_SQUASH, h]

theorem squash_star_star (rest2 : List Char) :
    S32_SQUASH ('*' :: '*' :: rest2) = '↑' :: S32_SQUASH rest2 := by
  simp [S32_SQUASH]

theorem squashEx_nil : S32_SQUASH_EX [] = [] := rfl

theorem squashEx_cons_of_ne {c : Char} (rest : List Char) (h : c ≠ '*') :
    S32_SQUASH_EX (c :: rest) = c :: S32_SQUASH_EX rest := by
  cases rest with
  | nil => simp [S32_SQUASH_EX, h]
  | cons c2 rest2 => simp [S32_SQUASH_EX, h]

theorem squashEx_star_nil : S32_SQUASH_EX ['*'] = ['*'] := by
  decide

theorem squashEx_star_cons_of_ne {c2 : Char} (rest2 : List Char) (h : c2 ≠ '*') :
    S32_SQUASH_EX ('*' :: c2 :: rest2) = '*' :: c2 :: S32_SQUASH_EX rest2 := by
  simp [S32_SQUASH_EX, h]

theorem squashEx_star_star (rest2 : List Char) :
    S32_SQUASH_EX ('*' :: '*' :: rest2) = '↑' :: S32_SQUASH_EX rest2 := by
  simp [S32_SQUASH_EX]

/-- A marker-free prefix passes through the strict SQUASH unchanged. -/
theorem squash_append_of_nostar {pre : List Char} (s : List Char) (h : '*' ∉ pre) :
    S32_SQUASH (pre ++ s) = pre ++ S32_SQUASH s := by
  induction pre with
  | nil => rfl
  | cons c rest ih =>
      have hc : c ≠ '*' := fun hc => h (hc ▸ List.mem_cons_self c rest)
      have hrest : '*' ∉ rest := fun hm => h (List.mem_cons_of_mem c hm)
      simp only [List.cons_append, squash_cons_of_ne _ hc, ih hrest]

/-- A marker-free prefix passes through the lenient SQUASH unchanged. -/
theorem squashEx_append_of_nostar {pre : List Char} (s : List Char) (h : '*' ∉ pre) :
    S32_SQUASH_EX (pre ++ s) = pre ++ S32_SQUASH_EX s := by
  induction pre with
  | nil => rfl
  | cons c rest ih =>
      have hc : c ≠ '*' := fun hc => h (hc ▸ List.mem_cons_self c rest)
      have hrest : '*' ∉ rest := fun hm => h (List.mem_cons_of_mem c hm)
      simp only [List.cons_append, squashEx_cons_of_ne _ hc, ih hrest]

/-- An even run of 2k markers followed by a non-marker squashes to k arrows
(strict machine). -/
theorem squash_even_run (k : Nat) {v : Char} (rest : List Char) (hv : v ≠ '*') :
    S32_SQUASH (List.replicate (2 * k) '*' ++ v :: rest)
      = List.replicate k '↑' ++ v :: S32_SQUASH rest := by
  induction k with
  | zero => simp [squash_cons_of_ne _ hv]
  | succ k ih =>
      have h2 : 2 * (k + 1) = 2 * k + 1 + 1 := by omega
      rw [h2, List.replicate_succ, List.replicate_succ, List.cons_append, List.cons_append,
        squash_star_star, ih, List.replicate_succ, List.cons_append]

/-- An odd run of 2k+1 markers followed by a non-marker squashes to k arrows,
the leftover marker, then the non-marker (strict machine). -/
theorem squash_odd_run (k : Nat) {v : Char} (rest : List Char) (hv : v ≠ '*') :
    S32_SQUASH (List.replicate (2 * k + 1) '*' ++ v :: rest)
      = List.replicate k '↑' ++ '*' :: v :: S32_SQUASH rest := by
  induction k with
  | zero => simp [squash_star_cons_of_ne _ hv]
  | succ k ih =>
      have h2 : 2 * (k + 1) + 1 = 2 * k + 1 + 1 + 1 := by omega
      rw [h2, List.replicate_succ, List.replicate_succ, List.cons_append, List.cons_append,
        squash_star_star, ih, List.replicate_succ, List.cons_append]

/-- An even run of 2k markers followed by a non-marker squashes to k arrows
(lenient machine). -/
theorem squashEx_even_run (k : Nat) {v : Char} (rest : List Char) (hv : v ≠ '*') :
    S32_SQUASH_EX (List.replicate (2 * k) '*' ++ v :: rest)
      = List.replicate k '↑' ++ v :: S32_SQUASH_EX rest := by
  induction k with
  | zero => simp [squashEx_cons_of_ne _ hv]
  | succ k ih =>
      have h2 : 2 * (k + 1) = 2 * k + 1 + 1 := by omega
      rw [h2, List.replicate_succ, List.replicate_succ, List.cons_append, List.cons_append,
        squashEx_star_star, ih, List.replicate_succ, List.cons_append]

/-- An odd run of 2k+1 markers followed by a non-marker squashes to k arrows,
the leftover marker, then the non-marker (lenient machine). -/
theorem squashEx_odd_run (k : Nat) {v : Char} (rest : List Char) (hv : v ≠ '*') :
    S32_SQUASH_EX (List.replicate (2 * k + 1) '*' ++ v :: rest)
      = List.replicate k '↑' ++ '*' :: v :: S32_SQUASH_EX rest := by
  induction k with
  | zero => simp [squashEx_star_cons_of_ne _ hv]
  | succ k ih =>
      have h2 : 2 * (k + 1) + 1 = 2 * k + 1 + 1 + 1 := by omega
      rw [h2, List.replicate_succ, List.replicate_succ, List.cons_append, List.cons_append,
        squashEx_star_star, ih, List.replicate_succ, List.cons_append]

/-! ### The ASSEMBLE loop realises 125-wide chunking with space padding -/

theorem take_set_succ {α : Type} (l : List α) (i : Nat) (a : α) (h : i < l.length) :
    (l.set i a).take (i + 1) = l.take i ++ [a] := by
  rw [List.set_eq_take_cons_drop a h, List.take_append_eq_append_take]
  have hlen : (l.take i).length = i := by
    rw [List.length_take]; omega
  rw [List.take_of_length_le (by omega), hlen]
  simp

theorem padLoop_eq (k : Nat) : ∀ (buf : List Char) (i : Nat),
    buf.length = 125 → i + k = 125 →
    padLoop buf i = buf.take i ++ List.replicate k ' ' := by
  induction k with
  | zero =>
      intro buf i hbuf hik
      have hi : i = 125 := by omega
      subst hi
      have ht : buf.take 125 = buf := List.take_of_length_le (by omega)
      rw [padLoop, if_neg (by omega), ht, List.replicate_zero, List.append_nil]
  | succ k ih =>
      intro buf i hbuf hik
      have hle : i ≤ 124 := by omega
      rw [padLoop, if_pos hle, ih (buf.set i ' ') (i + 1) (by simp [hbuf]) (by omega),
        take_set_succ buf i ' ' (by omega), List.append_assoc, List.singleton_append,
        ← List.replicate_succ]

theorem assembleSpec_nil : assembleSpec [] = [] := by
  rw [assembleSpec]
  simp

theorem assembleSpec_small {cs : List Char} (hne : cs ≠ []) (hlt : cs.length < 125) :
    assembleSpec cs = [cs ++ List.replicate (125 - cs.length) ' '] := by
  rw [assembleSpec, if_neg hne, if_neg (by omega)]

theorem assembleSpec_big {cs : List Char} (hge : 125 ≤ cs.length) :
    assembleSpec cs = cs.take 125 :: assembleSpec (cs.drop 125) := by
  have hne : cs ≠ [] := by
    intro h
    rw [h] at hge
    simp at hge
  rw [assembleSpec, if_neg hne, if_pos hge]

theorem assembleLoop_eq (cs : List Char) : ∀ (buf : List Char) (i : Nat),
    buf.length = 125 → i < 125 →
    S34_ASSEMBLE_loop cs buf i = assembleSpec (buf.take i ++ cs) := by
  induction cs with
  | nil =>
      intro buf i hbuf hi
      by_cases h0 : i = 0
      · subst h0
        simp [S34_ASSEMBLE_loop, assembleSpec_nil]
      · have hi0 : i > 0 := Nat.pos_of_ne_zero h0
        have htl : (buf.take i).length = i := by
          rw [List.length_take]; omega
        have hne : buf.take i ≠ [] := by
          intro h
          have hlen0 := congrArg List.length h
          rw [htl, List.length_nil] at hlen0
          omega
        rw [show S34_ASSEMBLE_loop [] buf i = if i > 0 then [padLoop buf i] else [] from rfl,
          if_pos hi0, padLoop_eq (125 - i) buf i hbuf (by omega), List.append_nil,
          assembleSpec_small hne (by omega), htl]
  | cons c rest ih =>
      intro buf i hbuf hi
      have hle : i ≤ 124 := by omega
      rw [show S34_ASSEMBLE_loop (c :: rest) buf i
            = (if (if i ≤ 124 then i + 1 else i) = 125
                then ((buf.set i c).set ((if i ≤ 124 then i + 1 else i) - 1) c)
                  :: S34_ASSEMBLE_loop rest
                      ((buf.set i c).set ((if i ≤ 124 then i + 1 else i) - 1) c) 0
                else S34_ASSEMBLE_loop rest (buf.set i c) (if i ≤ 124 then i + 1 else i))
          from rfl, if_pos hle]
      by_cases h125 : i + 1 = 125
      · have hi124 : i = 124 := by omega
        subst hi124
        rw [if_pos h125]
        have hset : (buf.set 124 c).set (124 + 1 - 1) c = buf.set 124 c := by
          simp [List.set_set]
        rw [hset, ih (buf.set 124 c) 0 (by simp [hbuf]) (by omega)]
        have hL : buf.set 124 c = buf.take 124 ++ [c] := by
          rw [List.set_eq_take_cons_drop c (by omega)]
          have : buf.drop 125 = [] := by
            rw [← hbuf, List.drop_length]
          rw [this]
        have htl : (buf.take 124).length = 124 := by
          rw [List.length_take]; omega
        have hlen : 125 ≤ (buf.take 124 ++ c :: rest).length := by
          rw [List.length_append, htl, List.length_cons]
          omega
        have h1 : (List.take 124 buf ++ c :: rest).take 125 = List.take 124 buf ++ [c] := by
          rw [List.take_append_eq_append_take, htl]
          have ht : List.take 125 (List.take 124 buf) = List.take 124 buf :=
            List.take_of_length_le (by omega)
          rw [ht]
          simp
        have h2 : (List.take 124 buf ++ c :: rest).drop 125 = rest := by
          rw [List.drop_append_eq_append_drop, htl]
          have hd : List.drop 125 (List.take 124 buf) = [] :=
            List.drop_eq_nil_of_le (by omega)
          rw [hd]
          simp
        rw [assembleSpec_big hlen, h1, h2, hL]
        simp
      · rw [if_neg h125, ih (buf.set i c) (i + 1) (by simp [hbuf]) (by omega),
          take_set_succ buf i c (by omega), List.append_assoc, List.singleton_append]

/-- The translated imperative ASSEMBLE equals the reference chunking. -/
theorem assemble_eq_spec (cs : List Char) : S34_ASSEMBLE cs = assembleSpec cs := by
  rw [S34_ASSEMBLE, assembleLoop_eq cs _ 0 (by simp) (by omega)]
  simp

theorem assembleSpec_append_mul (n : Nat) : ∀ (cs p : List Char), cs.length = 125 * n →
    assembleSpec (cs ++ p) = assembleSpec cs ++ assembleSpec p := by
  induction n with
  | zero =>
      intro cs p hcs
      have : cs = [] := List.eq_nil_of_length_eq_zero (by omega)
      subst this
      simp [assembleSpec_nil]
  | succ n ih =>
      intro cs p hcs
      have hge : 125 ≤ cs.length := by omega
      have hgep : 125 ≤ (cs ++ p).length := by
        rw [List.length_append]; omega
      rw [assembleSpec_big hgep, assembleSpec_big hge,
        List.take_append_of_le_length hge, List.drop_append_of_le_length hge,
        ih (cs.drop 125) p (by rw [List.length_drop]; omega), List.cons_append]

theorem assembleSpec_exact (n : Nat) : ∀ (cs : List Char), cs.length = 125 * n →
    (assembleSpec cs).flatten = cs ∧ ∀ l ∈ assembleSpec cs, l.length = 125 := by
  induction n with
  | zero =>
      intro cs hcs
      have : cs = [] := List.eq_nil_of_length_eq_zero (by omega)
      subst this
      simp [assembleSpec_nil]
  | succ n ih =>
      intro cs hcs
      have hge : 125 ≤ cs.length := by omega
      obtain ⟨ihj, ihm⟩ := ih (cs.drop 125) (by rw [List.length_drop]; omega)
      rw [assembleSpec_big hge]
      constructor
      · rw [List.flatten_cons, ihj, List.take_append_drop]
      · intro l hl
        rcases List.mem_cons.mp hl with h | h
        · rw [h, List.length_take]; omega
        · exact ihm l h

/-! ### DISASSEMBLE unfolding and output length -/

theorem disassemble_cons (tmp : List Char) (rest : List (List Char)) :
    S33_DISASSEMBLE (tmp :: rest)
      = (if tmp.length > 80 then tmp.take 80 else tmp) ++ ' ' :: S33_DISASSEMBLE rest := rfl

theorem disassemble_length (cards : List (List Char)) (h : ∀ c ∈ cards, c.length = 80) :
    (S33_DISASSEMBLE cards).length = 81 * cards.length := by
  induction cards with
  | nil => rfl
  | cons r rest ih =>
      have hr : r.length = 80 := h r (List.mem_cons_self r rest)
      have hrest : ∀ c ∈ rest, c.length = 80 := fun c hc => h c (List.mem_cons_of_mem r hc)
      rw [disassemble_cons, if_neg (by omega), List.length_append, List.length_cons,
        ih hrest, hr, List.length_cons]
      ring

/-! ### Channel traces: every transducer closes once, at the very end -/

theorem copy_id (s : List Char) : S31_COPY s = s := by
  induction s with
  | nil => rfl
  | cons c rest ih => rw [S31_COPY, ih]

theorem copy_tr_eq (w : List Char) :
    S31_COPY_tr w = (S31_COPY w).map Ev.v ++ [Ev.close] := by
  induction w with
  | nil => rfl
  | cons c rest ih => simp [S31_COPY, S31_COPY_tr, ih]

theorem squash_tr_cons_of_ne {c : Char} (rest : List Char) (h : c ≠ '*') :
    S32_SQUASH_tr (c :: rest) = Ev.v c :: S32_SQUASH_tr rest := by
  cases rest with
  | nil => simp [S32_SQUASH_tr, h]
  | cons c2 rest2 => simp [S32_SQUASH_tr, h]

theorem squashEx_tr_cons_of_ne {c : Char} (rest : List Char) (h : c ≠ '*') :
    S32_SQUASH_EX_tr (c :: rest) = Ev.v c :: S32_SQUASH_EX_tr rest := by
  cases rest with
  | nil => simp [S32_SQUASH_EX_tr, h]
  | cons c2 rest2 => simp [S32_SQUASH_EX_tr, h]

theorem squash_tr_eq (w : List Char) :
    S32_SQUASH_tr w = (S32_SQUASH w).map Ev.v ++ [Ev.close] := by
  induction w using S32_SQUASH.induct with
  | case1 => rfl
  | case2 c rest hc ih =>
      rw [squash_tr_cons_of_ne rest hc, squash_cons_of_ne rest hc, ih]
      simp
  | case3 c hc =>
      have hc' : c = '*' := by simpa using hc
      subst hc'
      simp [S32_SQUASH, S32_SQUASH_tr]
  | case4 c hc c2 rest2 hc2 ih =>
      have hc' : c = '*' := by simpa using hc
      subst hc'
      simp [S32_SQUASH, S32_SQUASH_tr, hc2, ih]
  | case5 c hc c2 rest2 hc2 ih =>
      have hc' : c = '*' := by simpa using hc
      have hc2' : c2 = '*' := by simpa using hc2
      subst hc'
      subst hc2'
      simp [S32_SQUASH, S32_SQUASH_tr, ih]

theorem squashEx_tr_eq (w : List Char) :
    S32_SQUASH_EX_tr w = (S32_SQUASH_EX w).map Ev.v ++ [Ev.close] := by
  induction w using S32_SQUASH_EX.induct with
  | case1 => rfl
  | case2 c rest hc ih =>
      rw [squashEx_tr_cons_of_ne rest hc, squashEx_cons_of_ne rest hc, ih]
      simp
  | case3 c hc =>
      have hc' : c = '*' := by simpa using hc
      subst hc'
      simp [S32_SQUASH_EX, S32_SQUASH_EX_tr]
  | case4 c hc c2 rest2 hc2 ih =>
      have hc' : c = '*' := by simpa using hc
      subst hc'
      simp [S32_SQUASH_EX, S32_SQUASH_EX_tr, hc2, ih]
  | case5 c hc c2 rest2 hc2 ih =>
      have hc' : c = '*' := by simpa using hc
      have hc2' : c2 = '*' := by simpa using hc2
      subst hc'
      subst hc2'
      simp [S32_SQUASH_EX, S32_SQUASH_EX_tr, ih]

theorem disassemble_tr_eq (cards : List (List Char)) :
    S33_DISASSEMBLE_tr cards = (S33_DISASSEMBLE cards).map Ev.v ++ [Ev.close] := by
  induction cards with
  | nil => rfl
  | cons tmp rest ih => simp [S33_DISASSEMBLE, S33_DISASSEMBLE_tr, ih]

theorem assemble_loop_tr_eq (cs : List Char) : ∀ (buf : List Char) (i : Nat),
    S34_ASSEMBLE_loop_tr cs buf i
      = (S34_ASSEMBLE_loop cs buf i).map Ev.v ++ [Ev.close] := by
  induction cs with
  | nil =>
      intro buf i
      by_cases h : i > 0 <;> simp [S34_ASSEMBLE_loop, S34_ASSEMBLE_loop_tr, h]
  | cons c rest ih =>
      intro buf i
      by_cases h : (if i ≤ 124 then i + 1 else i) = 125 <;>
        simp [S34_ASSEMBLE_loop, S34_ASSEMBLE_loop_tr, h, ih]

theorem assemble_tr_eq (w : List Char) :
    S34_ASSEMBLE_tr w = (S34_ASSEMBLE w).map Ev.v ++ [Ev.close] := by
  rw [S34_ASSEMBLE_tr, S34_ASSEMBLE, assemble_loop_tr_eq]

/-! ### Trailing marker run and strict/lenient agreement -/

theorem ts_cons_of_ne {c : Char} (rest : List Char) (h : c ≠ '*') :
    trailingStars (c :: rest) = trailingStars rest := by
  simp [trailingStars, h]

theorem ts_star_cons (rest : List Char) :
    trailingStars ('*' :: rest)
      = if trailingStars rest = rest.length then rest.length + 1
        else trailingStars rest := by
  simp [trailingStars]

theorem ts_le (s : List Char) : trailingStars s ≤ s.length := by
  induction s with
  | nil => simp [trailingStars]
  | cons c rest ih =>
      simp only [trailingStars, List.length_cons]
      split
      · omega
      · omega

/-- On an input whose trailing marker run has even length, the strict and the
lenient SQUASH produce the same output. -/
theorem squash_eq_squashEx_of_even (s : List Char) :
    trailingStars s % 2 = 0 → S32_SQUASH s = S32_SQUASH_EX s := by
  induction s using S32_SQUASH.induct with
  | case1 => intro _; rfl
  | case2 c rest hc ih =>
      intro h
      rw [ts_cons_of_ne rest hc] at h
      rw [squash_cons_of_ne rest hc, squashEx_cons_of_ne rest hc, ih h]
  | case3 c hc =>
      intro h
      have hc' : c = '*' := by simpa using hc
      subst hc'
      rw [ts_star_cons] at h
      simp [trailingStars] at h
  | case4 c hc c2 rest2 hc2 ih =>
      intro h
      have hc' : c = '*' := by simpa using hc
      subst hc'
      rw [ts_star_cons, ts_cons_of_ne rest2 hc2] at h
      have hle := ts_le rest2
      rw [if_neg (by simp only [List.length_cons]; omega)] at h
      rw [squash_star_cons_of_ne rest2 hc2, squashEx_star_cons_of_ne rest2 hc2, ih h]
  | case5 c hc c2 rest2 hc2 ih =>
      intro h
      have hc' : c = '*' := by simpa using hc
      have hc2' : c2 = '*' := by simpa using hc2
      subst hc'
      subst hc2'
      have hle := ts_le rest2
      have hts : trailingStars ('*' :: '*' :: rest2)
          = if trailingStars rest2 = rest2.length then rest2.length + 2
            else trailingStars rest2 := by
        simp only [ts_star_cons, List.length_cons]
        by_cases hall : trailingStars rest2 = rest2.length
        · simp [hall]
        · simp only [if_neg hall]
          rw [if_neg (by omega)]
      rw [hts] at h
      have h2 : trailingStars rest2 % 2 = 0 := by
        by_cases hall : trailingStars rest2 = rest2.length
        · rw [if_pos hall] at h
          omega
        · rw [if_neg hall] at h
          exact h
      rw [squash_star_star, squashEx_star_star, ih h2]

/-- Chunk step of the reference assembly: a 124-long prefix plus one more
character completes a line. -/
theorem assembleSpec_chunk_cons {p : List Char} (c : Char) (rest : List Char)
    (hp : p.length = 124) :
    assembleSpec (p ++ c :: rest) = (p ++ [c]) :: assembleSpec rest := by
  have hlen : 125 ≤ (p ++ c :: rest).length := by
    rw [List.length_append, List.length_cons]
    omega
  have h1 : (p ++ c :: rest).take 125 = p ++ [c] := by
    rw [List.take_append_eq_append_take, hp]
    have ht : List.take 125 p = p := List.take_of_length_le (by omega)
    rw [ht]
    simp
  have h2 : (p ++ c :: rest).drop 125 = rest := by
    rw [List.drop_append_eq_append_drop, hp]
    have hd : List.drop 125 p = [] := List.drop_eq_nil_of_le (by omega)
    rw [hd]
    simp
  rw [assembleSpec_big hlen, h1, h2]

/-! ### The claims -/

/-- C1: in either Squash transducer, a maximal run of 2k markers followed by a
non-marker v squashes to k arrows, and a maximal run of 2k+1 markers followed
by v squashes to k arrows, the marker, then v; the no-marker prefix `pre` fixes
the left side of the run as maximal, and `v ≠ '*'` its right side.  In
particular "a**b" squashes to "a↑b" and "a***b" to "a↑*b". -/
theorem c1_squash_maximal_runs (k : Nat) (v : Char) (rest pre : List Char)
    (hv : v ≠ '*') (hpre : '*' ∉ pre) :
    S32_SQUASH_EX (pre ++ (List.replicate (2 * k) '*' ++ v :: rest))
      = pre ++ (List.replicate k '↑' ++ v :: S32_SQUASH_EX rest)
  ∧ S32_SQUASH_EX (pre ++ (List.replicate (2 * k + 1) '*' ++ v :: rest))
      = pre ++ (List.replicate k '↑' ++ '*' :: v :: S32_SQUASH_EX rest)
  ∧ S32_SQUASH (pre ++ (List.replicate (2 * k) '*' ++ v :: rest))
      = pre ++ (List.replicate k '↑' ++ v :: S32_SQUASH rest)
  ∧ S32_SQUASH (pre ++ (List.replicate (2 * k + 1) '*' ++ v :: rest))
      = pre ++ (List.replicate k '↑' ++ '*' :: v :: S32_SQUASH rest)
  ∧ S32_SQUASH_EX ['a', '*', '*', 'b'] = ['a', '↑', 'b']
  ∧ S32_SQUASH_EX ['a', '*', '*', '*', 'b'] = ['a', '↑', '*', 'b']
  ∧ S32_SQUASH ['a', '*', '*', 'b'] = ['a', '↑', 'b']
  ∧ S32_SQUASH ['a', '*', '*', '*', 'b'] = ['a', '↑', '*', 'b'] := by
  refine ⟨?_, ?_, ?_, ?_, by decide, by decide, by decide, by decide⟩
  · rw [squashEx_append_of_nostar _ hpre, squashEx_even_run k rest hv]
  · rw [squashEx_append_of_nostar _ hpre, squashEx_odd_run k rest hv]
  · rw [squash_append_of_nostar _ hpre, squash_even_run k rest hv]
  · rw [squash_append_of_nostar _ hpre, squash_odd_run k rest hv]

/-- Witness for C1 at k = 1, v = 'b', pre = "a". -/
theorem c1_squash_maximal_runs_witness :
    ('b' ≠ '*' ∧ '*' ∉ ['a'])
  ∧ (S32_SQUASH_EX (['a'] ++ (List.replicate (2 * 1) '*' ++ 'b' :: []))
      = ['a'] ++ (List.replicate 1 '↑' ++ 'b' :: S32_SQUASH_EX [])
    ∧ S32_SQUASH_EX (['a'] ++ (List.replicate (2 * 1 + 1) '*' ++ 'b' :: []))
      = ['a'] ++ (List.replicate 1 '↑' ++ '*' :: 'b' :: S32_SQUASH_EX [])
    ∧ S32_SQUASH (['a'] ++ (List.replicate (2 * 1) '*' ++ 'b' :: []))
      = ['a'] ++ (List.replicate 1 '↑' ++ 'b' :: S32_SQUASH [])
    ∧ S32_SQUASH (['a'] ++ (List.replicate (2 * 1 + 1) '*' ++ 'b' :: []))
      = ['a'] ++ (List.replicate 1 '↑' ++ '*' :: 'b' :: S32_SQUASH [])
    ∧ S32_SQUASH_EX ['a', '*', '*', 'b'] = ['a', '↑', 'b']
    ∧ S32_SQUASH_EX ['a', '*', '*', '*', 'b'] = ['a', '↑', '*', 'b']
    ∧ S32_SQUASH ['a', '*', '*', 'b'] = ['a', '↑', 'b']
    ∧ S32_SQUASH ['a', '*', '*', '*', 'b'] = ['a', '↑', '*', 'b']) :=
  ⟨⟨by decide, by decide⟩, c1_squash_maximal_runs 1 'b' [] ['a'] (by decide) (by decide)⟩

/-- C2: writing the 125th character and emitting the line is one atomic step;
the just-received character is the last element of the emitted line, and an
input of exactly 125 characters yields exactly that one line, unpadded. -/
theorem c2_assemble_line_boundary (p : List Char) (c : Char) (rest cs : List Char)
    (hp : p.length = 124) (hcs : cs.length = 125) :
    S34_ASSEMBLE (p ++ c :: rest) = (p ++ [c]) :: S34_ASSEMBLE rest
  ∧ S34_ASSEMBLE cs = [cs] := by
  constructor
  · rw [assemble_eq_spec, assemble_eq_spec, assembleSpec_chunk_cons c rest hp]
  · rw [assemble_eq_spec, assembleSpec_big (by omega)]
    have h1 : cs.take 125 = cs := List.take_of_length_le (by omega)
    have h2 : cs.drop 125 = [] := List.drop_eq_nil_of_le (by omega)
    rw [h1, h2, assembleSpec_nil]

/-- Witness for C2 at a 124-long prefix plus one character, and at a
125-character input. -/
theorem c2_assemble_line_boundary_witness :
    ((List.replicate 124 'x').length = 124 ∧ (List.replicate 125 'z').length = 125)
  ∧ (S34_ASSEMBLE (List.replicate 124 'x' ++ 'y' :: [])
      = (List.replicate 124 'x' ++ ['y']) :: S34_ASSEMBLE []
    ∧ S34_ASSEMBLE (List.replicate 125 'z') = [List.replicate 125 'z']) :=
  ⟨⟨by decide, by decide⟩,
    c2_assemble_line_boundary (List.replicate 124 'x') 'y' [] (List.replicate 125 'z')
      (by decide) (by decide)⟩

/-- C3: Disassemble emits, per record, its elements (all of them for records
of at most 80 characters, only the first 80 otherwise) followed by exactly
one space; short records are not padded. -/
theorem c3_disassemble_record (r : List Char) (rest : List (List Char)) :
    (r.length ≤ 80 →
      S33_DISASSEMBLE (r :: rest) = r ++ ' ' :: S33_DISASSEMBLE rest
        ∧ (S33_DISASSEMBLE [r]).length = r.length + 1)
  ∧ (r.length > 80 →
      S33_DISASSEMBLE (r :: rest) = r.take 80 ++ ' ' :: S33_DISASSEMBLE rest
        ∧ (S33_DISASSEMBLE [r]).length = 81) := by
  constructor
  · intro h
    refine ⟨by rw [disassemble_cons, if_neg (by omega)], ?_⟩
    rw [disassemble_cons, if_neg (by omega)]
    simp [S33_DISASSEMBLE]
  · intro h
    refine ⟨by rw [disassemble_cons, if_pos (by omega)], ?_⟩
    rw [disassemble_cons, if_pos (by omega)]
    simp [S33_DISASSEMBLE]
    omega

/-- Witness for C3 at a 1-character record and an 81-character record. -/
theorem c3_disassemble_record_witness :
    (S33_DISASSEMBLE [['a']] = ['a'] ++ ' ' :: S33_DISASSEMBLE []
      ∧ (S33_DISASSEMBLE [['a']]).length = ['a'].length + 1)
  ∧ (S33_DISASSEMBLE [List.replicate 81 'b']
        = (List.replicate 81 'b').take 80 ++ ' ' :: S33_DISASSEMBLE []
      ∧ (S33_DISASSEMBLE [List.replicate 81 'b']).length = 81) :=
  ⟨(c3_disassemble_record ['a'] []).1 (by decide),
   (c3_disassemble_record (List.replicate 81 'b') []).2 (by decide)⟩

/-- C4: on input ending in a single unpaired marker, the lenient transducer
emits the dangling marker verbatim while the strict transducer drops it;
in particular "ab*" yields "ab*" leniently and "ab" strictly. -/
theorem c4_dangling_marker (s : List Char) (h : '*' ∉ s) :
    S32_SQUASH_EX (s ++ ['*']) = s ++ ['*']
  ∧ S32_SQUASH (s ++ ['*']) = s
  ∧ S32_SQUASH_EX ['a', 'b', '*'] = ['a', 'b', '*']
  ∧ S32_SQUASH ['a', 'b', '*'] = ['a', 'b'] := by
  refine ⟨?_, ?_, by decide, by decide⟩
  · rw [squashEx_append_of_nostar _ h, squashEx_star_nil]
  · rw [squash_append_of_nostar _ h, squash_star_nil, List.append_nil]

/-- Witness for C4 at s = "ab". -/
theorem c4_dangling_marker_witness :
    '*' ∉ ['a', 'b']
  ∧ (S32_SQUASH_EX (['a', 'b'] ++ ['*']) = ['a', 'b'] ++ ['*']
    ∧ S32_SQUASH (['a', 'b'] ++ ['*']) = ['a', 'b']
    ∧ S32_SQUASH_EX ['a', 'b', '*'] = ['a', 'b', '*']
    ∧ S32_SQUASH ['a', 'b', '*'] = ['a', 'b']) :=
  ⟨by decide, c4_dangling_marker ['a', 'b'] (by decide)⟩

/-- C5: when input closes with a partially filled line the remainder is
space-padded and the final line emitted; with an empty buffer nothing more is
emitted; 130 characters give one full line plus 5 characters and 120 spaces. -/
theorem c5_assemble_close (n : Nat) (cs p ds : List Char)
    (hcs : cs.length = 125 * n) (hp : p.length < 125) (hds : ds.length = 130) :
    (0 < p.length →
      S34_ASSEMBLE (cs ++ p)
        = S34_ASSEMBLE cs ++ [p ++ List.replicate (125 - p.length) ' '])
  ∧ (p.length = 0 → S34_ASSEMBLE (cs ++ p) = S34_ASSEMBLE cs)
  ∧ S34_ASSEMBLE ds = [ds.take 125, ds.drop 125 ++ List.replicate 120 ' '] := by
  refine ⟨?_, ?_, ?_⟩
  · intro hpos
    have hne : p ≠ [] := by
      intro he
      rw [he] at hpos
      simp at hpos
    rw [assemble_eq_spec, assemble_eq_spec, assembleSpec_append_mul n cs p hcs,
      assembleSpec_small hne hp]
  · intro h0
    have he : p = [] := List.eq_nil_of_length_eq_zero h0
    rw [he, List.append_nil]
  · rw [assemble_eq_spec, assembleSpec_big (by omega)]
    have hd : (ds.drop 125).length = 5 := by
      simp [List.length_drop, hds]
    have hdne : ds.drop 125 ≠ [] := by
      intro he
      rw [he] at hd
      simp at hd
    rw [assembleSpec_small hdne (by omega), hd]

/-- Witness for C5 at one full line plus 5 characters, and at 130
characters. -/
theorem c5_assemble_close_witness :
    (S34_ASSEMBLE (List.replicate 125 'x' ++ List.replicate 5 'y')
      = S34_ASSEMBLE (List.replicate 125 'x')
          ++ [List.replicate 5 'y'
              ++ List.replicate (125 - (List.replicate 5 'y').length) ' '])
  ∧ S34_ASSEMBLE (List.replicate 130 'z')
      = [(List.replicate 130 'z').take 125,
         (List.replicate 130 'z').drop 125 ++ List.replicate 120 ' '] :=
  ⟨(c5_assemble_close 1 (List.replicate 125 'x') (List.replicate 5 'y')
      (List.replicate 130 'z') (by decide) (by decide) (by decide)).1 (by decide),
   (c5_assemble_close 1 (List.replicate 125 'x') (List.replicate 5 'y')
      (List.replicate 130 'z') (by decide) (by decide) (by decide)).2.2⟩

/-- C6: when every card is exactly 80 characters and the disassembled stream
(with separators) has length a multiple of 125, assembling it reproduces the
stream exactly, re-chunked into 125-character lines with no padding. -/
theorem c6_roundtrip (cards : List (List Char))
    (_h80 : ∀ c ∈ cards, c.length = 80)
    (hdiv : (S33_DISASSEMBLE cards).length % 125 = 0) :
    (S34_ASSEMBLE (S33_DISASSEMBLE cards)).flatten = S33_DISASSEMBLE cards
  ∧ ∀ l ∈ S34_ASSEMBLE (S33_DISASSEMBLE cards), l.length = 125 := by
  obtain ⟨m, hm⟩ := Nat.dvd_of_mod_eq_zero hdiv
  rw [assemble_eq_spec]
  exact assembleSpec_exact m (S33_DISASSEMBLE cards) hm

/-- Witness for C6 at 125 cards of 80 repeated characters. -/
theorem c6_roundtrip_witness :
    ((∀ c ∈ List.replicate 125 (List.replicate 80 'x'), c.length = 80)
      ∧ (S33_DISASSEMBLE (List.replicate 125 (List.replicate 80 'x'))).length % 125
          = 0)
  ∧ ((S34_ASSEMBLE (S33_DISASSEMBLE (List.replicate 125 (List.replicate 80 'x')))).flatten
        = S33_DISASSEMBLE (List.replicate 125 (List.replicate 80 'x'))
    ∧ ∀ l ∈ S34_ASSEMBLE (S33_DISASSEMBLE (List.replicate 125 (List.replicate 80 'x'))),
        l.length = 125) := by
  have h80 : ∀ c ∈ List.replicate 125 (List.replicate 80 'x'), c.length = 80 := by
    intro c hc
    rw [List.eq_of_mem_replicate hc]
    simp
  have hdiv :
      (S33_DISASSEMBLE (List.replicate 125 (List.replicate 80 'x'))).length % 125
        = 0 := by
    rw [disassemble_length _ h80, List.length_replicate]
  exact ⟨⟨h80, hdiv⟩, c6_roundtrip (List.replicate 125 (List.replicate 80 'x')) h80 hdiv⟩

/-- C7: the Reformat pipeline on one 80-character card emits exactly one
125-character line: the 80 card characters, one separator space, then 44 fill
spaces. -/
theorem c7_reformat_single_card (card : List Char) (h : card.length = 80) :
    S35_Reformat [card] = [card ++ ' ' :: List.replicate 44 ' '] := by
  have hd : S33_DISASSEMBLE [card] = card ++ [' '] := by
    rw [disassemble_cons, if_neg (by omega)]
    rfl
  rw [S35_Reformat, hd, copy_id, assemble_eq_spec]
  have hne : card ++ [' '] ≠ [] := by simp
  have hlen : (card ++ [' ']).length = 81 := by simp [h]
  rw [assembleSpec_small hne (by omega), hlen]
  norm_num [List.append_assoc]

/-- Witness for C7 at a card of 80 repeated characters. -/
theorem c7_reformat_single_card_witness :
    (List.replicate 80 'q').length = 80
  ∧ S35_Reformat [List.replicate 80 'q']
      = [List.replicate 80 'q' ++ ' ' :: List.replicate 44 ' '] :=
  ⟨by decide, c7_reformat_single_card (List.replicate 80 'q') (by decide)⟩

/-- C8: Copy is the identity transducer: every element is relayed unchanged,
in order, one output per input, and nothing else is emitted. -/
theorem c8_copy_identity (s : List Char) : S31_COPY s = s :=
  copy_id s

/-- C9: each transducer's output trace is its value stream followed by exactly
one close event: it closes its output exactly once, after the final emission,
and sends nothing afterwards. -/
theorem c9_close_exactly_once (w : List Char) (cards : List (List Char)) :
    S31_COPY_tr w = (S31_COPY w).map Ev.v ++ [Ev.close]
  ∧ S32_SQUASH_tr w = (S32_SQUASH w).map Ev.v ++ [Ev.close]
  ∧ S32_SQUASH_EX_tr w = (S32_SQUASH_EX w).map Ev.v ++ [Ev.close]
  ∧ S33_DISASSEMBLE_tr cards = (S33_DISASSEMBLE cards).map Ev.v ++ [Ev.close]
  ∧ S34_ASSEMBLE_tr w = (S34_ASSEMBLE w).map Ev.v ++ [Ev.close] :=
  ⟨copy_tr_eq w, squash_tr_eq w, squashEx_tr_eq w, disassemble_tr_eq cards,
    assemble_tr_eq w⟩

/-- C10: on every input whose final maximal marker run has even length
(including marker-free and empty inputs), the strict and the lenient SQUASH
produce identical outputs. -/
theorem c10_policies_agree_on_even_tail (s : List Char)
    (h : trailingStars s % 2 = 0) : S32_SQUASH s = S32_SQUASH_EX s :=
  squash_eq_squashEx_of_even s h

/-- Witness for C10 at "a**", whose trailing marker run has length 2. -/
theorem c10_policies_agree_on_even_tail_witness :
    trailingStars ['a', '*', '*'] % 2 = 0
  ∧ S32_SQUASH ['a', '*', '*'] = S32_SQUASH_EX ['a', '*', '*'] :=
  ⟨by decide, c10_policies_agree_on_even_tail ['a', '*', '*'] (by decide)⟩

end Csp
